import Mathlib

/-!
Shallow embedding of the superq repository's core components:

* `MemoryQueue` (src/unnamed/part_001): a FIFO work queue with bounded
  concurrency and request coalescing.  JavaScript `Map`s are modelled as
  association lists in insertion order; the asynchronous processor is
  modelled by an explicit `settle` event delivering the processor's
  outcome for an item that is in the processing set; promise
  resolve/reject chains built by coalescing are modelled by a `callers`
  count on each item plus a delivery log recording the value handed to
  each attached caller.  JavaScript truthiness checks on strings
  (`if (coalesceKey)`, `if (oldest)`, `if (!entry)`, `if (cached)`) are
  modelled faithfully: the empty string is falsy.

* `MemoryCache` (src/src/lib/cache/memory-cache.ts): an LRU cache over a
  JS `Map`, where `get` and `set` refresh recency by delete+set and `set`
  evicts the first key of the map when the size exceeds `maxSize`.

* `ChatRepository.computeAndStore` / `ChatService.processMessage`
  (src/src/routes/chat/chat.repository.ts, src/unnamed/part_007): the
  cache-aside pipeline, modelled in its sequential (non-interleaved)
  semantics.  The SHA-256 digest comes from the external `node:crypto`
  library, so it is abstracted as an arbitrary function `hashFn`.
-/

/-! ## Association-list model of JavaScript `Map` (insertion order) -/

/-- Lookup in an insertion-ordered map (JS `Map.prototype.get`). -/
def mget {κ α : Type} [DecidableEq κ] : List (κ × α) → κ → Option α
  | [], _ => none
  | p :: rest, k => if p.1 = k then some p.2 else mget rest k

/-- Insert or overwrite (JS `Map.prototype.set`): an existing key keeps
its position, a new key is appended at the end. -/
def mset {κ α : Type} [DecidableEq κ] : List (κ × α) → κ → α → List (κ × α)
  | [], k, v => [(k, v)]
  | p :: rest, k, v => if p.1 = k then (k, v) :: rest else p :: mset rest k v

/-- Remove a key (JS `Map.prototype.delete`). -/
def mdel {κ α : Type} [DecidableEq κ] : List (κ × α) → κ → List (κ × α)
  | [], _ => []
  | p :: rest, k => if p.1 = k then mdel rest k else p :: mdel rest k

/-- Update the value stored at a key in place (used for mutating a
`QueueItem` held in the items table). -/
def mupd {κ α : Type} [DecidableEq κ] (l : List (κ × α)) (k : κ) (f : α → α) :
    List (κ × α) :=
  l.map (fun p => if p.1 = k then (p.1, f p.2) else p)

/-! ## MemoryQueue model -/

/-- Status of a `QueueItem` (`'pending' | 'processing' | 'completed' | 'failed'`). -/
inductive Status
  | pending
  | processing
  | completed
  | failed
deriving DecidableEq, Repr

/-- Error delivered to a caller's rejected promise: either the distinct
`new Error('Queue cleared')` produced by `clear()`, or the processor's
own error. -/
inductive QErr
  | cleared
  | processorErr (msg : String)
deriving DecidableEq, Repr

/-- Value delivered to one attached caller when its promise settles. -/
inductive Delivered
  | ok (r : String)
  | err (e : QErr)
deriving DecidableEq, Repr

/-- Outcome of one processor invocation (the promise returned by
`this.processor(item.data)` resolving or rejecting). -/
inductive Outcome
  | success (r : String)
  | failure (msg : String)
deriving DecidableEq, Repr

/-- One `QueueItem`.  `callers` counts the fulfill/reject pairs chained
onto the item: 1 at creation, +1 per coalesced enqueue. -/
structure QueueItem where
  id : Nat
  data : String
  enqueuedAt : Nat
  status : Status
  callers : Nat
  startedAt : Option Nat
  completedAt : Option Nat
deriving DecidableEq, Repr

/-- A settlement event: the values delivered (one per attached caller)
when a single item's promise chain fires. -/
structure DeliveryEv where
  itemId : Nat
  deliveries : List Delivered
deriving DecidableEq, Repr

/-- The mutable state of a `MemoryQueue`.  `queue` is the pending FIFO
(item ids), `processing` the processing set, `coalescing` the
coalesce-key index, `items` the table of all created items.  `log`
records every delivery made to callers.  `nextId` stands in for
`randomUUID()` and `now` for `Date.now()`. -/
structure QueueState where
  queue : List Nat
  processing : List Nat
  coalescing : List (String × Nat)
  items : List (Nat × QueueItem)
  completed : Nat
  failed : Nat
  coalesced : Nat
  totalEnqueued : Nat
  totalProcessed : Nat
  nextId : Nat
  now : Nat
  log : List DeliveryEv
deriving DecidableEq, Repr

/-- Static configuration of a `MemoryQueue`: the concurrency limit and
the optional `getCoalesceKey` function. -/
structure QCfg where
  concurrency : Nat
  gk : Option (String → String)

/-- The coalesce key `this.getCoalesceKey?.(data)` computed in `enqueue`. -/
def coalesceKeyOf (gk : Option (String → String)) (data : String) : Option String :=
  match gk with
  | none => none
  | some f => some (f data)

/-- JavaScript truthiness of `string | undefined`: `undefined` and the
empty string are falsy. -/
def truthy : Option String → Bool
  | none => false
  | some s => decide (s ≠ "")

/-- The empty queue (fresh `MemoryQueue` instance). -/
def initQ : QueueState :=
  { queue := [], processing := [], coalescing := [], items := []
    completed := 0, failed := 0, coalesced := 0, totalEnqueued := 0
    totalProcessed := 0, nextId := 0, now := 0, log := [] }

/-- `processNext`: if the processing set is at the concurrency limit do
nothing; otherwise shift the head of the FIFO, mark it `processing`,
record its start timestamp and add it to the processing set.  (The
asynchronous processor invocation it launches is modelled by a later
`settle` event.) -/
def processNext (cfg : QCfg) (s : QueueState) : QueueState :=
  if s.processing.length ≥ cfg.concurrency then s
  else
    match s.queue with
    | [] => s
    | id :: rest =>
      { s with
        queue := rest
        processing := s.processing ++ [id]
        items := mupd s.items id
          (fun it => { it with status := .processing, startedAt := some s.now })
        now := s.now + 1 }

/-- The creation branch of `enqueue`: build a fresh pending `QueueItem`,
increment `totalEnqueued`, push the item on the FIFO, register it in the
coalescing index when the key is truthy, and trigger `processNext`. -/
def enqueueNew (cfg : QCfg) (s : QueueState) (data : String) (ck : Option String) :
    QueueState :=
  let item : QueueItem :=
    { id := s.nextId, data := data, enqueuedAt := s.now, status := .pending
      callers := 1, startedAt := none, completedAt := none }
  let s1 :=
    { s with
      totalEnqueued := s.totalEnqueued + 1
      queue := s.queue ++ [item.id]
      items := s.items ++ [(item.id, item)]
      nextId := s.nextId + 1
      now := s.now + 1 }
  let s2 :=
    if truthy ck then
      { s1 with coalescing := mset s1.coalescing (ck.getD "") item.id }
    else s1
  processNext cfg s2

/-- `enqueue(data)`: when the coalesce key is truthy and an in-flight
item already exists under it, increment `coalesced` and chain one more
fulfill/reject pair onto that item; otherwise create a new item. -/
def enqueue (cfg : QCfg) (s : QueueState) (data : String) : QueueState :=
  let ck := coalesceKeyOf cfg.gk data
  if truthy ck then
    match mget s.coalescing (ck.getD "") with
    | some eid =>
      { s with
        coalesced := s.coalesced + 1
        items := mupd s.items eid (fun it => { it with callers := it.callers + 1 }) }
    | none => enqueueNew cfg s data ck
  else enqueueNew cfg s data ck

/-- The `.then`/`.catch`/`.finally` continuation of the processor
promise for item `id`: record the terminal status and completion
timestamp, bump the counters, deliver the outcome to every chained
caller, then remove the item from the processing set, drop its
coalesce-key entry (when truthy) and re-invoke `processNext`.  The
continuation exists only for items that were started, so a `settle` for
an id outside the processing set is a no-op. -/
def settle (cfg : QCfg) (s : QueueState) (id : Nat) (oc : Outcome) : QueueState :=
  if id ∈ s.processing then
    match mget s.items id with
    | none => s
    | some it =>
      let fin : QueueItem :=
        match oc with
        | .success _ => { it with status := .completed, completedAt := some s.now }
        | .failure _ => { it with status := .failed, completedAt := some s.now }
      let dv : Delivered :=
        match oc with
        | .success r => .ok r
        | .failure m => .err (.processorErr m)
      let s1 :=
        { s with
          items := mupd s.items id (fun _ => fin)
          completed := s.completed + (match oc with | .success _ => 1 | .failure _ => 0)
          failed := s.failed + (match oc with | .success _ => 0 | .failure _ => 1)
          totalProcessed := s.totalProcessed + 1
          log := s.log ++ [({ itemId := id, deliveries := List.replicate it.callers dv } : DeliveryEv)]
          now := s.now + 1 }
      let s2 := { s1 with processing := s1.processing.erase id }
      let s3 :=
        if truthy (coalesceKeyOf cfg.gk it.data) then
          { s2 with coalescing := mdel s2.coalescing ((coalesceKeyOf cfg.gk it.data).getD "") }
        else s2
      processNext cfg s3
  else s

/-- `clear()`: reject every pending item's chained callers with the
distinct `Queue cleared` error, empty the FIFO and the coalescing index
and zero all counters.  The processing set and the item table are left
untouched. -/
def clear (s : QueueState) : QueueState :=
  let rejected : List DeliveryEv :=
    s.queue.map (fun id =>
      ({ itemId := id
         deliveries :=
           match mget s.items id with
           | some it => List.replicate it.callers (Delivered.err .cleared)
           | none => [] } : DeliveryEv))
  { s with
    log := s.log ++ rejected
    queue := []
    coalescing := []
    completed := 0, failed := 0, coalesced := 0
    totalEnqueued := 0, totalProcessed := 0 }

/-- External events driving a `MemoryQueue`: an `enqueue` call, the
settlement of a started processor invocation, and a `clear()` call. -/
inductive QEvent
  | enq (data : String)
  | done (id : Nat) (oc : Outcome)
  | clr
deriving Repr

/-- Apply one external event. -/
def qstep (cfg : QCfg) (s : QueueState) : QEvent → QueueState
  | .enq data => enqueue cfg s data
  | .done id oc => settle cfg s id oc
  | .clr => clear s

/-- Run a sequence of external events from the fresh queue. -/
def qrun (cfg : QCfg) (evs : List QEvent) : QueueState :=
  evs.foldl (qstep cfg) initQ

/-! ## MemoryCache model -/

/-- The state of a `MemoryCache`: the JS `Map` in insertion order (last
entry is the most recently used), hit/miss counters, and the configured
`maxSize`. -/
structure MemCache where
  data : List (String × String)
  hits : Nat
  misses : Nat
  maxSize : Nat
deriving DecidableEq, Repr

/-- A fresh `MemoryCache` with the given maximum size. -/
def emptyCache (maxSize : Nat) : MemCache :=
  { data := [], hits := 0, misses := 0, maxSize := maxSize }

/-- `get(key)`: a missing entry — or a falsy (empty-string) stored value,
because of the `if (!entry)` check — counts a miss and returns `none`;
otherwise count a hit, refresh recency by delete+set, and return the
value. -/
def cacheGet (c : MemCache) (key : String) : MemCache × Option String :=
  match mget c.data key with
  | none => ({ c with misses := c.misses + 1 }, none)
  | some v =>
    if v = "" then ({ c with misses := c.misses + 1 }, none)
    else
      ({ c with hits := c.hits + 1, data := mset (mdel c.data key) key v }, some v)

/-- `set(key, value)`: delete+set to refresh recency, then, if the size
now exceeds `maxSize`, read the first key of the map and delete it —
but only when that key is truthy (`if (oldest)`), so an empty-string
oldest key is never evicted. -/
def cacheSet (c : MemCache) (key v : String) : MemCache :=
  let d := mset (mdel c.data key) key v
  if d.length > c.maxSize then
    match d.head? with
    | some p => if p.1 ≠ "" then { c with data := mdel d p.1 } else { c with data := d }
    | none => { c with data := d }
  else { c with data := d }

/-! ## Cache-aside pipeline (`ChatRepository` + `ChatService`) -/

/-- Result shape of `ChatService.processMessage`. -/
structure ProcessResult where
  hash : String
  processingTimeMs : Nat
  fromCache : Bool
deriving DecidableEq, Repr

/-- `ChatRepository.computeAndStore`: compute the digest of the text
with the (external, abstracted) hash function after the configured
delay, store it in the cache under the raw text, and return it together
with the measured processing time (at least the delay). -/
def computeAndStore (hashFn : String → String) (delayMs : Nat) (c : MemCache)
    (text : String) : MemCache × ProcessResult :=
  let h := hashFn text
  (cacheSet c text h, { hash := h, processingTimeMs := delayMs, fromCache := false })

/-- `ChatService.processMessage` in its sequential semantics: look up
the cache; on a truthy cached value return it with
`processingTimeMs = 0` and `fromCache = true`; otherwise run the
enqueued computation to completion (`computeAndStore`) and return its
result with `fromCache = false`. -/
def processMessage (hashFn : String → String) (delayMs : Nat) (c : MemCache)
    (text : String) : MemCache × ProcessResult :=
  let (c1, cached) := cacheGet c text
  match cached with
  | some v =>
    if v ≠ "" then (c1, { hash := v, processingTimeMs := 0, fromCache := true })
    else (computeAndStore hashFn delayMs c1 text)
  | none => computeAndStore hashFn delayMs c1 text

/-- Run a sequence of `processMessage` calls from a fresh cache of the
given maximum size, keeping only the cache state. -/
def runMessages (hashFn : String → String) (delayMs : Nat) (maxSize : Nat)
    (texts : List String) : MemCache :=
  texts.foldl (fun c t => (processMessage hashFn delayMs c t).1) (emptyCache maxSize)

/-! ## Lemmas about the map model -/

theorem mget_mupd_self {κ α : Type} [DecidableEq κ] (l : List (κ × α)) (k : κ)
    (f : α → α) : mget (mupd l k f) k = (mget l k).map f := by
  induction l with
  | nil => rfl
  | cons p rest ih =>
    by_cases h : p.1 = k
    · simp [mupd, mget, h]
    · simpa [mupd, mget, h] using ih

theorem mget_mupd_ne {κ α : Type} [DecidableEq κ] (l : List (κ × α)) (k k' : κ)
    (f : α → α) (h : k' ≠ k) : mget (mupd l k f) k' = mget l k' := by
  induction l with
  | nil => rfl
  | cons p rest ih =>
    by_cases hp : p.1 = k
    · have hpk : ¬ p.1 = k' := fun hc => h (by rw [← hc]; exact hp)
      simp only [mupd, List.map, if_pos hp, mget, if_neg hpk]
      exact ih
    · by_cases hp' : p.1 = k'
      · simp only [mupd, List.map, if_neg hp, mget, if_pos hp']
      · simp only [mupd, List.map, if_neg hp, mget, if_neg hp']
        exact ih

theorem length_mupd {κ α : Type} [DecidableEq κ] (l : List (κ × α)) (k : κ)
    (f : α → α) : (mupd l k f).length = l.length := by
  simp [mupd]

theorem mget_mset_self {κ α : Type} [DecidableEq κ] (l : List (κ × α)) (k : κ)
    (v : α) : mget (mset l k v) k = some v := by
  induction l with
  | nil => simp [mset, mget]
  | cons p rest ih =>
    by_cases h : p.1 = k
    · simp [mset, mget, h]
    · simpa [mset, mget, h] using ih

theorem mget_mset_ne {κ α : Type} [DecidableEq κ] (l : List (κ × α)) (k k' : κ)
    (v : α) (h : k' ≠ k) : mget (mset l k v) k' = mget l k' := by
  have hkk : ¬ k = k' := fun hc => h hc.symm
  induction l with
  | nil => simp only [mset, mget, if_neg hkk]
  | cons p rest ih =>
    by_cases hp : p.1 = k
    · have hpk : ¬ p.1 = k' := fun hc => h (by rw [← hc]; exact hp)
      simp only [mset, if_pos hp, mget, if_neg hkk, if_neg hpk]
    · simp only [mset, if_neg hp, mget]
      by_cases hp' : p.1 = k'
      · simp only [if_pos hp']
      · simp only [if_neg hp']
        exact ih

theorem mget_mdel_self {κ α : Type} [DecidableEq κ] (l : List (κ × α)) (k : κ) :
    mget (mdel l k) k = none := by
  induction l with
  | nil => rfl
  | cons p rest ih =>
    by_cases h : p.1 = k
    · simpa [mdel, h] using ih
    · simpa [mdel, mget, h] using ih

theorem mget_mdel_ne {κ α : Type} [DecidableEq κ] (l : List (κ × α)) (k k' : κ)
    (h : k' ≠ k) : mget (mdel l k) k' = mget l k' := by
  induction l with
  | nil => rfl
  | cons p rest ih =>
    by_cases hp : p.1 = k
    · have hpk : ¬ p.1 = k' := fun hc => h (by rw [← hc]; exact hp)
      simp only [mdel, if_pos hp, mget, if_neg hpk]
      exact ih
    · simp only [mdel, if_neg hp, mget]
      by_cases hp' : p.1 = k'
      · simp only [if_pos hp']
      · simp only [if_neg hp']
        exact ih

theorem mdel_eq_of_mget_none {κ α : Type} [DecidableEq κ] (l : List (κ × α))
    (k : κ) (h : mget l k = none) : mdel l k = l := by
  induction l with
  | nil => rfl
  | cons p rest ih =>
    by_cases hp : p.1 = k
    · simp [mget, hp] at h
    · simp [mget, hp] at h
      simp [mdel, hp, ih h]

theorem mset_eq_append_of_mget_none {κ α : Type} [DecidableEq κ]
    (l : List (κ × α)) (k : κ) (v : α) (h : mget l k = none) :
    mset l k v = l ++ [(k, v)] := by
  induction l with
  | nil => rfl
  | cons p rest ih =>
    by_cases hp : p.1 = k
    · simp [mget, hp] at h
    · simp [mget, hp] at h
      simp [mset, hp, ih h]

theorem mget_none_forall {κ α : Type} [DecidableEq κ] (l : List (κ × α)) (k : κ)
    (h : mget l k = none) : ∀ p ∈ l, p.1 ≠ k := by
  induction l with
  | nil => intro p hp; cases hp
  | cons q rest ih =>
    by_cases hq : q.1 = k
    · simp [mget, hq] at h
    · simp [mget, hq] at h
      intro p hp
      rcases List.mem_cons.mp hp with hp' | hp'
      · simpa [hp'] using hq
      · exact ih h p hp'

theorem mem_of_mget_eq_some {κ α : Type} [DecidableEq κ] (l : List (κ × α))
    (k : κ) (v : α) (h : mget l k = some v) : (k, v) ∈ l := by
  induction l with
  | nil => cases h
  | cons p rest ih =>
    by_cases hp : p.1 = k
    · simp only [mget, if_pos hp] at h
      have hv : p.2 = v := Option.some.inj h
      have hkv : (k, v) = p := by
        cases p with
        | mk a b =>
          cases hp
          cases hv
          rfl
      rw [hkv]
      exact List.mem_cons_self _ _
    · simp only [mget, if_neg hp] at h
      exact List.mem_cons_of_mem _ (ih h)

theorem mem_mdel {κ α : Type} [DecidableEq κ] (l : List (κ × α)) (k : κ)
    (p : κ × α) (h : p ∈ mdel l k) : p ∈ l := by
  induction l with
  | nil => cases h
  | cons q rest ih =>
    by_cases hq : q.1 = k
    · rw [show mdel (q :: rest) k = mdel rest k from by simp [mdel, hq]] at h
      exact List.mem_cons_of_mem _ (ih h)
    · rw [show mdel (q :: rest) k = q :: mdel rest k from by simp [mdel, hq]] at h
      rcases List.mem_cons.mp h with h | h
      · rw [h]
        exact List.mem_cons_self _ _
      · exact List.mem_cons_of_mem _ (ih h)

theorem mem_mset {κ α : Type} [DecidableEq κ] (l : List (κ × α)) (k : κ) (v : α)
    (p : κ × α) (h : p ∈ mset l k v) : p ∈ l ∨ p = (k, v) := by
  induction l with
  | nil =>
    right
    simpa [mset] using h
  | cons q rest ih =>
    by_cases hq : q.1 = k
    · rw [show mset (q :: rest) k v = (k, v) :: rest from by simp [mset, hq]] at h
      rcases List.mem_cons.mp h with h | h
      · right; exact h
      · left; exact List.mem_cons_of_mem _ h
    · rw [show mset (q :: rest) k v = q :: mset rest k v from by simp [mset, hq]] at h
      rcases List.mem_cons.mp h with h | h
      · left
        rw [h]
        exact List.mem_cons_self _ _
      · rcases ih h with h' | h'
        · left; exact List.mem_cons_of_mem _ h'
        · right; exact h'

/-! ## Structural lemmas about the queue scheduler -/

theorem processNext_of_full (cfg : QCfg) (s : QueueState)
    (h : s.processing.length ≥ cfg.concurrency) : processNext cfg s = s := by
  simp [processNext, h]

theorem processNext_of_nil (cfg : QCfg) (s : QueueState) (h : s.queue = []) :
    processNext cfg s = s := by
  unfold processNext
  rw [h]
  split <;> rfl

theorem processNext_pop (cfg : QCfg) (s : QueueState) (id : Nat) (rest : List Nat)
    (hcap : s.processing.length < cfg.concurrency) (hq : s.queue = id :: rest) :
    processNext cfg s =
      { s with
        queue := rest
        processing := s.processing ++ [id]
        items := mupd s.items id
          (fun it => { it with status := .processing, startedAt := some s.now })
        now := s.now + 1 } := by
  unfold processNext
  rw [hq, if_neg (Nat.not_le.mpr hcap)]

theorem processNext_coalescing (cfg : QCfg) (s : QueueState) :
    (processNext cfg s).coalescing = s.coalescing := by
  unfold processNext
  split
  · rfl
  · split <;> rfl

theorem processNext_completed (cfg : QCfg) (s : QueueState) :
    (processNext cfg s).completed = s.completed := by
  unfold processNext
  split
  · rfl
  · split <;> rfl

theorem processNext_failed (cfg : QCfg) (s : QueueState) :
    (processNext cfg s).failed = s.failed := by
  unfold processNext
  split
  · rfl
  · split <;> rfl

theorem processNext_coalesced (cfg : QCfg) (s : QueueState) :
    (processNext cfg s).coalesced = s.coalesced := by
  unfold processNext
  split
  · rfl
  · split <;> rfl

theorem processNext_totalEnqueued (cfg : QCfg) (s : QueueState) :
    (processNext cfg s).totalEnqueued = s.totalEnqueued := by
  unfold processNext
  split
  · rfl
  · split <;> rfl

theorem processNext_totalProcessed (cfg : QCfg) (s : QueueState) :
    (processNext cfg s).totalProcessed = s.totalProcessed := by
  unfold processNext
  split
  · rfl
  · split <;> rfl

theorem processNext_nextId (cfg : QCfg) (s : QueueState) :
    (processNext cfg s).nextId = s.nextId := by
  unfold processNext
  split
  · rfl
  · split <;> rfl

theorem processNext_log (cfg : QCfg) (s : QueueState) :
    (processNext cfg s).log = s.log := by
  unfold processNext
  split
  · rfl
  · split <;> rfl

theorem processNext_items_length (cfg : QCfg) (s : QueueState) :
    (processNext cfg s).items.length = s.items.length := by
  unfold processNext
  split
  · rfl
  · split
    · rfl
    · simp [length_mupd]

theorem processNext_callers (cfg : QCfg) (s : QueueState) (k : Nat) :
    (mget (processNext cfg s).items k).map QueueItem.callers =
      (mget s.items k).map QueueItem.callers := by
  unfold processNext
  split
  · rfl
  · split
    · rfl
    next id rest heq =>
      dsimp only
      by_cases hk : k = id
      · subst hk
        rw [mget_mupd_self]
        cases mget s.items k <;> rfl
      · rw [mget_mupd_ne _ _ _ _ hk]

theorem processNext_bound (cfg : QCfg) (s : QueueState)
    (h : s.processing.length ≤ cfg.concurrency) :
    (processNext cfg s).processing.length ≤ cfg.concurrency := by
  unfold processNext
  split
  · exact h
  next hfull =>
    split
    · exact h
    · simp only [List.length_append, List.length_cons, List.length_nil]
      omega

theorem settle_not_processing (cfg : QCfg) (s : QueueState) (id : Nat)
    (oc : Outcome) (h : ¬ id ∈ s.processing) : settle cfg s id oc = s := by
  simp [settle, h]

theorem settle_success_eq (cfg : QCfg) (s : QueueState) (id : Nat)
    (it : QueueItem) (r : String) (hp : id ∈ s.processing)
    (hi : mget s.items id = some it) :
    settle cfg s id (Outcome.success r) =
      processNext cfg
        { s with
          items := mupd s.items id
            (fun _ => { it with status := .completed, completedAt := some s.now })
          completed := s.completed + 1
          failed := s.failed
          totalProcessed := s.totalProcessed + 1
          log := s.log ++
            [({ itemId := id, deliveries := List.replicate it.callers (Delivered.ok r) } : DeliveryEv)]
          now := s.now + 1
          processing := s.processing.erase id
          coalescing :=
            if truthy (coalesceKeyOf cfg.gk it.data) then
              mdel s.coalescing ((coalesceKeyOf cfg.gk it.data).getD "")
            else s.coalescing } := by
  unfold settle
  rw [if_pos hp, hi]
  dsimp only
  by_cases ht : truthy (coalesceKeyOf cfg.gk it.data) = true
  · simp only [if_pos ht, Nat.add_zero]
  · simp only [if_neg ht, Nat.add_zero]

theorem settle_failure_eq (cfg : QCfg) (s : QueueState) (id : Nat)
    (it : QueueItem) (msg : String) (hp : id ∈ s.processing)
    (hi : mget s.items id = some it) :
    settle cfg s id (Outcome.failure msg) =
      processNext cfg
        { s with
          items := mupd s.items id
            (fun _ => { it with status := .failed, completedAt := some s.now })
          completed := s.completed
          failed := s.failed + 1
          totalProcessed := s.totalProcessed + 1
          log := s.log ++
            [({ itemId := id
                deliveries := List.replicate it.callers (Delivered.err (QErr.processorErr msg)) } : DeliveryEv)]
          now := s.now + 1
          processing := s.processing.erase id
          coalescing :=
            if truthy (coalesceKeyOf cfg.gk it.data) then
              mdel s.coalescing ((coalesceKeyOf cfg.gk it.data).getD "")
            else s.coalescing } := by
  unfold settle
  rw [if_pos hp, hi]
  dsimp only
  by_cases ht : truthy (coalesceKeyOf cfg.gk it.data) = true
  · simp only [if_pos ht, Nat.add_zero]
  · simp only [if_neg ht, Nat.add_zero]

/-! ## The concurrency bound is an invariant of every event sequence -/

theorem enqueueNew_bound (cfg : QCfg) (s : QueueState) (data : String)
    (ck : Option String) (h : s.processing.length ≤ cfg.concurrency) :
    (enqueueNew cfg s data ck).processing.length ≤ cfg.concurrency := by
  unfold enqueueNew
  apply processNext_bound
  dsimp only
  split <;> exact h

theorem enqueue_bound (cfg : QCfg) (s : QueueState) (data : String)
    (h : s.processing.length ≤ cfg.concurrency) :
    (enqueue cfg s data).processing.length ≤ cfg.concurrency := by
  unfold enqueue
  dsimp only
  split
  · split
    · exact h
    · exact enqueueNew_bound _ _ _ _ h
  · exact enqueueNew_bound _ _ _ _ h

theorem settle_bound (cfg : QCfg) (s : QueueState) (id : Nat) (oc : Outcome)
    (h : s.processing.length ≤ cfg.concurrency) :
    (settle cfg s id oc).processing.length ≤ cfg.concurrency := by
  unfold settle
  split
  · split
    · exact h
    · apply processNext_bound
      dsimp only
      split
      · simp only []
        calc (s.processing.erase id).length ≤ s.processing.length :=
              (List.erase_sublist id s.processing).length_le
          _ ≤ cfg.concurrency := h
      · calc (s.processing.erase id).length ≤ s.processing.length :=
              (List.erase_sublist id s.processing).length_le
          _ ≤ cfg.concurrency := h
  · exact h

theorem clear_bound (cfg : QCfg) (s : QueueState)
    (h : s.processing.length ≤ cfg.concurrency) :
    (clear s).processing.length ≤ cfg.concurrency := h

theorem qstep_bound (cfg : QCfg) (s : QueueState) (e : QEvent)
    (h : s.processing.length ≤ cfg.concurrency) :
    (qstep cfg s e).processing.length ≤ cfg.concurrency := by
  cases e with
  | enq data => exact enqueue_bound cfg s data h
  | done id oc => exact settle_bound cfg s id oc h
  | clr => exact clear_bound cfg s h

theorem foldl_qstep_bound (cfg : QCfg) (evs : List QEvent) :
    ∀ s : QueueState, s.processing.length ≤ cfg.concurrency →
      (evs.foldl (qstep cfg) s).processing.length ≤ cfg.concurrency := by
  induction evs with
  | nil => intro s h; exact h
  | cons e rest ih =>
    intro s h
    exact ih _ (qstep_bound cfg s e h)

/-! ## The pending FIFO stays sorted by creation order -/

/-- Invariant used for the FIFO-order claim: the pending FIFO holds item
ids in strictly increasing creation order, and every pending id was
created before `nextId`. -/
def QueueOrdered (s : QueueState) : Prop :=
  List.Chain' (· < ·) s.queue ∧ ∀ id ∈ s.queue, id < s.nextId

theorem queueOrdered_init : QueueOrdered initQ := by
  constructor
  · simp [initQ]
  · intro id h
    simp [initQ] at h

theorem queueOrdered_processNext (cfg : QCfg) (s : QueueState)
    (h : QueueOrdered s) : QueueOrdered (processNext cfg s) := by
  unfold processNext
  split
  · exact h
  · split
    · exact h
    next id rest heq =>
      constructor
      · exact (heq ▸ h.1).tail
      · intro j hj
        exact h.2 j (heq ▸ List.mem_cons_of_mem id hj)

theorem queueOrdered_enqueueNew (cfg : QCfg) (s : QueueState) (data : String)
    (ck : Option String) (h : QueueOrdered s) :
    QueueOrdered (enqueueNew cfg s data ck) := by
  unfold enqueueNew
  apply queueOrdered_processNext
  dsimp only
  have hq : List.Chain' (· < ·) (s.queue ++ [s.nextId]) := by
    rw [List.chain'_append]
    refine ⟨h.1, List.chain'_singleton _, ?_⟩
    intro x hx y hy
    simp only [List.head?_cons, Option.mem_def, Option.some.injEq] at hy
    subst hy
    exact h.2 x (List.mem_of_mem_getLast? hx)
  have hlt : ∀ id ∈ s.queue ++ [s.nextId], id < s.nextId + 1 := by
    intro j hj
    rcases List.mem_append.mp hj with hj | hj
    · exact Nat.lt_succ_of_lt (h.2 j hj)
    · simp only [List.mem_singleton] at hj
      subst hj
      exact Nat.lt_succ_self _
  split
  · exact ⟨hq, hlt⟩
  · exact ⟨hq, hlt⟩

theorem queueOrdered_enqueue (cfg : QCfg) (s : QueueState) (data : String)
    (h : QueueOrdered s) : QueueOrdered (enqueue cfg s data) := by
  unfold enqueue
  dsimp only
  split
  · split
    · exact ⟨h.1, h.2⟩
    · exact queueOrdered_enqueueNew cfg s data _ h
  · exact queueOrdered_enqueueNew cfg s data _ h

theorem queueOrdered_settle (cfg : QCfg) (s : QueueState) (id : Nat)
    (oc : Outcome) (h : QueueOrdered s) : QueueOrdered (settle cfg s id oc) := by
  unfold settle
  split
  · split
    · exact h
    · apply queueOrdered_processNext
      dsimp only
      split
      · exact ⟨h.1, h.2⟩
      · exact ⟨h.1, h.2⟩
  · exact h

theorem queueOrdered_clear (s : QueueState) (_h : QueueOrdered s) :
    QueueOrdered (clear s) := by
  constructor
  · simp [clear]
  · intro id hid
    simp [clear] at hid

theorem queueOrdered_qstep (cfg : QCfg) (s : QueueState) (e : QEvent)
    (h : QueueOrdered s) : QueueOrdered (qstep cfg s e) := by
  cases e with
  | enq data => exact queueOrdered_enqueue cfg s data h
  | done id oc => exact queueOrdered_settle cfg s id oc h
  | clr => exact queueOrdered_clear s h

theorem foldl_qstep_ordered (cfg : QCfg) (evs : List QEvent) :
    ∀ s : QueueState, QueueOrdered s → QueueOrdered (evs.foldl (qstep cfg) s) := by
  induction evs with
  | nil => intro s h; exact h
  | cons e rest ih =>
    intro s h
    exact ih _ (queueOrdered_qstep cfg s e h)

theorem mget_append_of_none {κ α : Type} [DecidableEq κ] (l l' : List (κ × α))
    (k : κ) (h : mget l k = none) : mget (l ++ l') k = mget l' k := by
  induction l with
  | nil => rfl
  | cons p rest ih =>
    by_cases hp : p.1 = k
    · simp [mget, hp] at h
    · simp only [mget, hp] at h
      simp only [List.cons_append, mget, if_neg hp]
      exact ih h

theorem processNext_items_of_not_mem (cfg : QCfg) (s : QueueState) (k : Nat)
    (hk : k ∉ s.queue) : mget (processNext cfg s).items k = mget s.items k := by
  unfold processNext
  split
  · rfl
  · split
    · rfl
    next id rest heq =>
      dsimp only
      refine mget_mupd_ne _ _ _ _ ?_
      intro hc
      exact hk (hc ▸ heq ▸ List.mem_cons_self id rest)

theorem processNext_processing_cases (cfg : QCfg) (s : QueueState) :
    (processNext cfg s).processing = s.processing ∨
    ∃ j rest, s.queue = j :: rest ∧ s.processing.length < cfg.concurrency ∧
      (processNext cfg s).processing = s.processing ++ [j] := by
  unfold processNext
  split
  · left; rfl
  next hfull =>
    split
    · left; rfl
    next j rest heq =>
      right
      exact ⟨j, rest, heq, Nat.not_le.mp hfull, rfl⟩

/-- Claim C3: for every concurrency limit and every sequence of external
events (enqueues of any keys, processor settlements, clears) starting
from the fresh queue, the processing set never holds more than
`concurrency` items: neither an enqueue nor a completion starts a new
item while the limit is reached. -/
theorem processing_never_exceeds_concurrency (cfg : QCfg) (evs : List QEvent) :
    (qrun cfg evs).processing.length ≤ cfg.concurrency := by
  unfold qrun
  apply foldl_qstep_bound
  simp [initQ]

/-- Claim C8: items begin processing in strict arrival order.  In every
state reachable from the fresh queue the pending FIFO holds item ids in
strictly increasing creation order (so its head is the earliest-enqueued
pending item), and whenever the scheduler starts an item — a free slot
and a nonempty FIFO — it pops exactly the head of the FIFO, appends it
to the processing set and marks it `processing`, with no priority or
reordering among pending items. -/
theorem fifo_strict_arrival_order (cfg : QCfg) (evs : List QEvent) :
    List.Chain' (· < ·) (qrun cfg evs).queue ∧
    (∀ s : QueueState, ∀ id : Nat, ∀ rest : List Nat,
      s.processing.length < cfg.concurrency → s.queue = id :: rest →
      (processNext cfg s).queue = rest ∧
      (processNext cfg s).processing = s.processing ++ [id] ∧
      mget (processNext cfg s).items id =
        (mget s.items id).map
          (fun it => { it with status := Status.processing, startedAt := some s.now })) := by
  constructor
  · exact (foldl_qstep_ordered cfg evs initQ queueOrdered_init).1
  · intro s id rest hcap hq
    rw [processNext_pop cfg s id rest hcap hq]
    refine ⟨rfl, rfl, ?_⟩
    dsimp only
    rw [mget_mupd_self]

/-! ## Coalescing: N enqueues of one key create a single item -/

/-- Apply `enqueue` with the same payload `n` times in a row (the model
of `n` concurrent calls: in the single-threaded runtime they execute in
some sequence with no settlement in between). -/
def enqueueN (cfg : QCfg) (data : String) : Nat → QueueState → QueueState
  | 0, s => s
  | n + 1, s => enqueueN cfg data n (enqueue cfg s data)

/-- Invariant relating the state after `1 + m` enqueues of one key to
the state `s` before the first of them: one new item (id `s.nextId`)
registered under the key, carrying `m + 1` chained callers, a single
`totalEnqueued` increment and `m` `coalesced` increments; when `s` had
an empty FIFO and a free slot, the item is in the processing set. -/
def CoalInv (cfg : QCfg) (s : QueueState) (key : String) (m : Nat)
    (s' : QueueState) : Prop :=
  mget s'.coalescing key = some s.nextId ∧
  (mget s'.items s.nextId).map QueueItem.callers = some (m + 1) ∧
  s'.totalEnqueued = s.totalEnqueued + 1 ∧
  s'.coalesced = s.coalesced + m ∧
  s'.items.length = s.items.length + 1 ∧
  (s.queue = [] → s.processing.length < cfg.concurrency →
    s'.processing = s.processing ++ [s.nextId])

theorem coalInv_first (cfg : QCfg) (s : QueueState) (data key : String)
    (hck : coalesceKeyOf cfg.gk data = some key) (hkey : key ≠ "")
    (hco : mget s.coalescing key = none) (hfresh : mget s.items s.nextId = none) :
    CoalInv cfg s key 0 (enqueue cfg s data) := by
  have htr : truthy (coalesceKeyOf cfg.gk data) = true := by
    rw [hck]
    simp [truthy, hkey]
  have hgd : (coalesceKeyOf cfg.gk data).getD "" = key := by
    rw [hck]
    rfl
  unfold enqueue
  rw [if_pos htr, hgd, hco]
  unfold enqueueNew
  dsimp only
  rw [if_pos htr, hgd]
  refine ⟨?_, ?_, ?_, ?_, ?_, ?_⟩
  · rw [processNext_coalescing]
    exact mget_mset_self _ _ _
  · rw [processNext_callers]
    dsimp only
    rw [mget_append_of_none _ _ _ hfresh]
    simp [mget]
  · rw [processNext_totalEnqueued]
  · rw [processNext_coalesced]
    simp
  · rw [processNext_items_length]
    simp
  · intro hq hcap
    rw [processNext_pop cfg _ s.nextId [] (by simpa using hcap) (by simp [hq])]

theorem coalInv_step (cfg : QCfg) (s : QueueState) (data key : String) (m : Nat)
    (s' : QueueState) (hck : coalesceKeyOf cfg.gk data = some key)
    (hkey : key ≠ "") (hinv : CoalInv cfg s key m s') :
    CoalInv cfg s key (m + 1) (enqueue cfg s' data) := by
  have htr : truthy (coalesceKeyOf cfg.gk data) = true := by
    rw [hck]
    simp [truthy, hkey]
  have hgd : (coalesceKeyOf cfg.gk data).getD "" = key := by
    rw [hck]
    rfl
  unfold enqueue
  rw [if_pos htr, hgd, hinv.1]
  refine ⟨hinv.1, ?_, hinv.2.2.1, ?_, ?_, hinv.2.2.2.2.2⟩
  · dsimp only
    rw [mget_mupd_self]
    rcases hit : mget s'.items s.nextId with _ | it
    · have h2 := hinv.2.1
      rw [hit] at h2
      simp at h2
    · have hc : it.callers = m + 1 := by
        have h2 := hinv.2.1
        rw [hit] at h2
        simpa using h2
      simp [hc]
  · dsimp only
    rw [hinv.2.2.2.1]
    omega
  · dsimp only
    rw [length_mupd]
    exact hinv.2.2.2.2.1

theorem coalInv_iter (cfg : QCfg) (s : QueueState) (data key : String)
    (hck : coalesceKeyOf cfg.gk data = some key) (hkey : key ≠ "") (n : Nat) :
    ∀ m : Nat, ∀ s' : QueueState, CoalInv cfg s key m s' →
      CoalInv cfg s key (m + n) (enqueueN cfg data n s') := by
  induction n with
  | zero =>
    intro m s' h
    simpa [enqueueN] using h
  | succ k ih =>
    intro m s' h
    have h1 := coalInv_step cfg s data key m s' hck hkey h
    have h2 := ih (m + 1) _ h1
    rw [show m + (k + 1) = m + 1 + k from by omega]
    exact h2

/-- Configuration used for concrete runs: concurrency `c`, coalesce key
equal to the payload itself (as in the chat queue, where the key is the
raw text). -/
def idKeyCfg (c : Nat) : QCfg :=
  { concurrency := c, gk := some (fun d => d) }

/-- Claim C1 as amended: starting from a state with no in-flight item
registered under a truthy (non-empty) coalesce key, `n ≥ 1` back-to-back
enqueues of that key create exactly one new `QueueItem` and increment
`totalEnqueued` exactly once, while each of the other `n - 1` enqueues
attaches one more fulfill/reject pair to that single item and increments
`coalesced` by one; and when the single item settles successfully all
`n` attached callers receive the identical result.  (The amendment —
the key must be non-empty — is forced by the `if (coalesceKey)`
truthiness guard in `enqueue`, which disables coalescing for the
empty-string key; see the counterexample below.) -/
theorem coalescing_single_flight (cfg : QCfg) (s : QueueState)
    (data key : String) (n : Nat) (hn : 1 ≤ n)
    (hck : coalesceKeyOf cfg.gk data = some key) (hkey : key ≠ "")
    (hco : mget s.coalescing key = none)
    (hfresh : mget s.items s.nextId = none) :
    (enqueueN cfg data n s).totalEnqueued = s.totalEnqueued + 1 ∧
    (enqueueN cfg data n s).coalesced = s.coalesced + (n - 1) ∧
    (enqueueN cfg data n s).items.length = s.items.length + 1 ∧
    (mget (enqueueN cfg data n s).items s.nextId).map QueueItem.callers = some n ∧
    (s.queue = [] → s.processing.length < cfg.concurrency → ∀ r : String,
      (settle cfg (enqueueN cfg data n s) s.nextId (Outcome.success r)).log =
        (enqueueN cfg data n s).log ++
          [({ itemId := s.nextId
              deliveries := List.replicate n (Delivered.ok r) } : DeliveryEv)]) := by
  obtain ⟨m, rfl⟩ : ∃ m, n = m + 1 := ⟨n - 1, by omega⟩
  have hbase := coalInv_first cfg s data key hck hkey hco hfresh
  have hinv := coalInv_iter cfg s data key hck hkey m 0 _ hbase
  rw [Nat.zero_add] at hinv
  have heq : enqueueN cfg data (m + 1) s = enqueueN cfg data m (enqueue cfg s data) := rfl
  rw [heq]
  refine ⟨hinv.2.2.1, ?_, hinv.2.2.2.2.1, ?_, ?_⟩
  · rw [hinv.2.2.2.1]
    omega
  · rw [hinv.2.1]
  · intro hq hcap r
    have hproc := hinv.2.2.2.2.2 hq hcap
    have hmem : s.nextId ∈ (enqueueN cfg data m (enqueue cfg s data)).processing := by
      rw [hproc]
      exact List.mem_append_right _ (List.mem_singleton_self _)
    rcases hit : mget (enqueueN cfg data m (enqueue cfg s data)).items s.nextId with _ | it
    · have h2 := hinv.2.1
      rw [hit] at h2
      simp at h2
    · have hc : it.callers = m + 1 := by
        have h2 := hinv.2.1
        rw [hit] at h2
        simpa using h2
      rw [settle_success_eq cfg _ s.nextId it r hmem hit, processNext_log]
      dsimp only
      rw [hc]

/-- Witness for claim C1 at a concrete input: three enqueues of the key
"k" on a fresh queue with concurrency 1. -/
theorem coalescing_single_flight_witness :
    1 ≤ 3 ∧ coalesceKeyOf (idKeyCfg 1).gk "k" = some "k" ∧ ("k" : String) ≠ "" ∧
    mget initQ.coalescing "k" = none ∧ mget initQ.items initQ.nextId = none ∧
    ((enqueueN (idKeyCfg 1) "k" 3 initQ).totalEnqueued = initQ.totalEnqueued + 1 ∧
      (enqueueN (idKeyCfg 1) "k" 3 initQ).coalesced = initQ.coalesced + (3 - 1) ∧
      (enqueueN (idKeyCfg 1) "k" 3 initQ).items.length = initQ.items.length + 1 ∧
      (mget (enqueueN (idKeyCfg 1) "k" 3 initQ).items initQ.nextId).map QueueItem.callers = some 3 ∧
      (initQ.queue = [] → initQ.processing.length < (idKeyCfg 1).concurrency → ∀ r : String,
        (settle (idKeyCfg 1) (enqueueN (idKeyCfg 1) "k" 3 initQ) initQ.nextId (Outcome.success r)).log =
          (enqueueN (idKeyCfg 1) "k" 3 initQ).log ++
            [({ itemId := initQ.nextId
                deliveries := List.replicate 3 (Delivered.ok r) } : DeliveryEv)])) :=
  ⟨by decide, by decide, by decide, by decide, by decide,
    coalescing_single_flight (idKeyCfg 1) initQ "k" "k" 3 (by decide) (by decide)
      (by decide) (by decide) (by decide)⟩

/-- Counterexample to claim C1 as stated: for the empty-string coalesce
key the `if (coalesceKey)` JavaScript truthiness guard in `enqueue`
skips both the coalescing lookup and the index registration, so two
enqueues sharing the key `""` from a fresh queue (which has no in-flight
item for that key) create two `QueueItem`s and increment `totalEnqueued`
twice while `coalesced` stays 0 — not one item, one `totalEnqueued`
increment and `N - 1 = 1` `coalesced` increment as the claim requires. -/
theorem coalescing_single_flight_ctr :
    mget initQ.coalescing "" = none ∧
    coalesceKeyOf (idKeyCfg 2).gk "" = some "" ∧
    (enqueueN (idKeyCfg 2) "" 2 initQ).totalEnqueued = 2 ∧
    (enqueueN (idKeyCfg 2) "" 2 initQ).coalesced = 0 ∧
    (enqueueN (idKeyCfg 2) "" 2 initQ).items.length = 2 ∧
    (enqueueN (idKeyCfg 2) "" 2 initQ).totalEnqueued ≠ initQ.totalEnqueued + 1 ∧
    (enqueueN (idKeyCfg 2) "" 2 initQ).coalesced ≠ initQ.coalesced + (2 - 1) ∧
    (enqueueN (idKeyCfg 2) "" 2 initQ).items.length ≠ initQ.items.length + 1 := by
  refine ⟨by decide, by decide, by decide, by decide, by decide, by decide,
    by decide, by decide⟩

/-- Claim C6: when the processor invocation for a started item fails,
the item transitions to `failed` with a completion timestamp, the
`failed` and `totalProcessed` counters each increment exactly once (per
item, not per attached caller), the error is delivered to every one of
the item's chained callers, the other in-flight items stay in the
processing set, and scheduling continues: the freed slot immediately
pulls the head of the pending FIFO. -/
theorem processor_failure_isolated (cfg : QCfg) (s : QueueState) (id : Nat)
    (it : QueueItem) (msg : String)
    (hp : id ∈ s.processing) (hi : mget s.items id = some it)
    (hq : id ∉ s.queue) (hnd : s.processing.Nodup) :
    (settle cfg s id (Outcome.failure msg)).failed = s.failed + 1 ∧
    (settle cfg s id (Outcome.failure msg)).totalProcessed = s.totalProcessed + 1 ∧
    (settle cfg s id (Outcome.failure msg)).completed = s.completed ∧
    mget (settle cfg s id (Outcome.failure msg)).items id =
      some { it with status := Status.failed, completedAt := some s.now } ∧
    (settle cfg s id (Outcome.failure msg)).log =
      s.log ++
        [({ itemId := id
            deliveries := List.replicate it.callers (Delivered.err (QErr.processorErr msg)) } : DeliveryEv)] ∧
    id ∉ (settle cfg s id (Outcome.failure msg)).processing ∧
    (∀ j ∈ s.processing, j ≠ id → j ∈ (settle cfg s id (Outcome.failure msg)).processing) ∧
    (∀ j rest, s.queue = j :: rest → (s.processing.erase id).length < cfg.concurrency →
      (settle cfg s id (Outcome.failure msg)).processing = s.processing.erase id ++ [j] ∧
      (settle cfg s id (Outcome.failure msg)).queue = rest) := by
  rw [settle_failure_eq cfg s id it msg hp hi]
  refine ⟨?_, ?_, ?_, ?_, ?_, ?_, ?_, ?_⟩
  · rw [processNext_failed]
  · rw [processNext_totalProcessed]
  · rw [processNext_completed]
  · rw [processNext_items_of_not_mem cfg
      { s with
        items := mupd s.items id
          (fun _ => { it with status := .failed, completedAt := some s.now })
        completed := s.completed
        failed := s.failed + 1
        totalProcessed := s.totalProcessed + 1
        log := s.log ++
          [({ itemId := id
              deliveries := List.replicate it.callers (Delivered.err (QErr.processorErr msg)) } : DeliveryEv)]
        now := s.now + 1
        processing := s.processing.erase id
        coalescing :=
          if truthy (coalesceKeyOf cfg.gk it.data) then
            mdel s.coalescing ((coalesceKeyOf cfg.gk it.data).getD "")
          else s.coalescing } id (by simpa using hq)]
    dsimp only
    rw [mget_mupd_self, hi]
    rfl
  · rw [processNext_log]
  · rcases processNext_processing_cases cfg
      { s with
        items := mupd s.items id
          (fun _ => { it with status := .failed, completedAt := some s.now })
        completed := s.completed
        failed := s.failed + 1
        totalProcessed := s.totalProcessed + 1
        log := s.log ++
          [({ itemId := id
              deliveries := List.replicate it.callers (Delivered.err (QErr.processorErr msg)) } : DeliveryEv)]
        now := s.now + 1
        processing := s.processing.erase id
        coalescing :=
          if truthy (coalesceKeyOf cfg.gk it.data) then
            mdel s.coalescing ((coalesceKeyOf cfg.gk it.data).getD "")
          else s.coalescing } with hcase | ⟨j, rest, hjq, hcap, hcase⟩
    · rw [hcase]
      intro hmem
      exact ((hnd.mem_erase_iff).mp hmem).1 rfl
    · rw [hcase]
      intro hmem
      rcases List.mem_append.mp hmem with hmem | hmem
      · exact ((hnd.mem_erase_iff).mp hmem).1 rfl
      · rw [List.mem_singleton] at hmem
        exact hq (hmem ▸ hjq ▸ List.mem_cons_self j rest)
  · intro j hj hjne
    have hje : j ∈ s.processing.erase id := (List.mem_erase_of_ne hjne).mpr hj
    rcases processNext_processing_cases cfg
      { s with
        items := mupd s.items id
          (fun _ => { it with status := .failed, completedAt := some s.now })
        completed := s.completed
        failed := s.failed + 1
        totalProcessed := s.totalProcessed + 1
        log := s.log ++
          [({ itemId := id
              deliveries := List.replicate it.callers (Delivered.err (QErr.processorErr msg)) } : DeliveryEv)]
        now := s.now + 1
        processing := s.processing.erase id
        coalescing :=
          if truthy (coalesceKeyOf cfg.gk it.data) then
            mdel s.coalescing ((coalesceKeyOf cfg.gk it.data).getD "")
          else s.coalescing } with hcase | ⟨j', rest, hjq, hcap, hcase⟩
    · rw [hcase]
      exact hje
    · rw [hcase]
      exact List.mem_append_left _ hje
  · intro j rest hjq hcap
    rw [processNext_pop cfg _ j rest (by simpa using hcap) (by simpa using hjq)]
    exact ⟨rfl, rfl⟩

/-- Witness for claim C6: a queue with one processing item (id 0) and
one pending item (id 1); the processor for item 0 fails. -/
theorem processor_failure_isolated_witness :
    (0 : Nat) ∈ (qrun (idKeyCfg 1) [QEvent.enq "a", QEvent.enq "b"]).processing ∧
    mget (qrun (idKeyCfg 1) [QEvent.enq "a", QEvent.enq "b"]).items 0 =
      some { id := 0, data := "a", enqueuedAt := 0, status := Status.processing
             callers := 1, startedAt := some 1, completedAt := none } ∧
    (0 : Nat) ∉ (qrun (idKeyCfg 1) [QEvent.enq "a", QEvent.enq "b"]).queue ∧
    (qrun (idKeyCfg 1) [QEvent.enq "a", QEvent.enq "b"]).processing.Nodup ∧
    ((settle (idKeyCfg 1) (qrun (idKeyCfg 1) [QEvent.enq "a", QEvent.enq "b"]) 0
        (Outcome.failure "boom")).failed =
      (qrun (idKeyCfg 1) [QEvent.enq "a", QEvent.enq "b"]).failed + 1 ∧
      (settle (idKeyCfg 1) (qrun (idKeyCfg 1) [QEvent.enq "a", QEvent.enq "b"]) 0
        (Outcome.failure "boom")).totalProcessed =
        (qrun (idKeyCfg 1) [QEvent.enq "a", QEvent.enq "b"]).totalProcessed + 1) :=
  have h := processor_failure_isolated (idKeyCfg 1)
    (qrun (idKeyCfg 1) [QEvent.enq "a", QEvent.enq "b"]) 0
    { id := 0, data := "a", enqueuedAt := 0, status := Status.processing
      callers := 1, startedAt := some 1, completedAt := none }
    "boom" (by decide) (by decide) (by decide) (by decide)
  ⟨by decide, by decide, by decide, by decide, h.1, h.2.1⟩

/-- Claim C7: `clear()` rejects every pending item's chained callers
with the distinct `Queue cleared` error (a `QErr.cleared`, distinguishable
by construction from any processor failure), empties the pending FIFO
and the coalescing index and zeroes every counter, while the processing
set and the item table are untouched, so an in-flight item still settles
normally, delivering its result to its callers. -/
theorem clear_rejects_pending_only (cfg : QCfg) (s : QueueState) :
    (clear s).queue = [] ∧
    (clear s).coalescing = [] ∧
    (clear s).completed = 0 ∧
    (clear s).failed = 0 ∧
    (clear s).coalesced = 0 ∧
    (clear s).totalEnqueued = 0 ∧
    (clear s).totalProcessed = 0 ∧
    (clear s).processing = s.processing ∧
    (clear s).items = s.items ∧
    (clear s).log.length = s.log.length + s.queue.length ∧
    (∀ id ∈ s.queue, ∀ it : QueueItem, mget s.items id = some it →
      ({ itemId := id
         deliveries := List.replicate it.callers (Delivered.err QErr.cleared) } : DeliveryEv) ∈
        (clear s).log) ∧
    (∀ e : String,
      (Delivered.err QErr.cleared : Delivered) ≠ Delivered.err (QErr.processorErr e)) ∧
    (∀ id : Nat, ∀ it : QueueItem, ∀ r : String,
      id ∈ s.processing → mget s.items id = some it →
      (settle cfg (clear s) id (Outcome.success r)).log =
        (clear s).log ++
          [({ itemId := id
              deliveries := List.replicate it.callers (Delivered.ok r) } : DeliveryEv)] ∧
      (settle cfg (clear s) id (Outcome.success r)).completed = 1 ∧
      (settle cfg (clear s) id (Outcome.success r)).totalProcessed = 1) := by
  refine ⟨rfl, rfl, rfl, rfl, rfl, rfl, rfl, rfl, rfl, ?_, ?_, ?_, ?_⟩
  · simp [clear]
  · intro id hid it hit
    refine List.mem_append_right _ ?_
    refine List.mem_map.mpr ⟨id, hid, ?_⟩
    rw [hit]
  · intro e h
    cases h
  · intro id it r hid hit
    have hid' : id ∈ (clear s).processing := hid
    have hit' : mget (clear s).items id = some it := hit
    rw [settle_success_eq cfg (clear s) id it r hid' hit']
    refine ⟨?_, ?_, ?_⟩
    · rw [processNext_log]
    · rw [processNext_completed]
      rfl
    · rw [processNext_totalProcessed]
      rfl

/-- Claim C10: a concrete run in which `clear()` is called while item 0
is processing.  The in-flight item survives the clear, settles its
caller's future normally, and its completion increments `completed` and
`totalProcessed` on top of the freshly zeroed statistics, so afterwards
the queue reports `totalProcessed = 1 > 0 = totalEnqueued` — the
inequality `totalProcessed ≤ totalEnqueued` is not an invariant across
`clear`. -/
theorem clear_inflight_breaks_counter_inequality :
    (qrun (idKeyCfg 1)
        [QEvent.enq "a", QEvent.clr, QEvent.done 0 (Outcome.success "r")]).totalProcessed = 1 ∧
    (qrun (idKeyCfg 1)
        [QEvent.enq "a", QEvent.clr, QEvent.done 0 (Outcome.success "r")]).totalEnqueued = 0 ∧
    (qrun (idKeyCfg 1)
        [QEvent.enq "a", QEvent.clr, QEvent.done 0 (Outcome.success "r")]).completed = 1 ∧
    (qrun (idKeyCfg 1)
        [QEvent.enq "a", QEvent.clr, QEvent.done 0 (Outcome.success "r")]).log =
      [({ itemId := 0, deliveries := [Delivered.ok "r"] } : DeliveryEv)] ∧
    (qrun (idKeyCfg 1)
        [QEvent.enq "a", QEvent.clr, QEvent.done 0 (Outcome.success "r")]).totalEnqueued <
      (qrun (idKeyCfg 1)
        [QEvent.enq "a", QEvent.clr, QEvent.done 0 (Outcome.success "r")]).totalProcessed := by
  refine ⟨by decide, by decide, by decide, by decide, by decide⟩

/-! ## Cache lemmas -/

theorem cacheGet_none (c : MemCache) (key : String)
    (h : mget c.data key = none) :
    cacheGet c key = ({ c with misses := c.misses + 1 }, none) := by
  unfold cacheGet
  rw [h]

theorem cacheGet_falsy (c : MemCache) (key : String)
    (h : mget c.data key = some "") :
    cacheGet c key = ({ c with misses := c.misses + 1 }, none) := by
  unfold cacheGet
  rw [h]
  simp

theorem cacheGet_some (c : MemCache) (key v : String)
    (h : mget c.data key = some v) (hne : v ≠ "") :
    cacheGet c key =
      ({ c with hits := c.hits + 1, data := mset (mdel c.data key) key v },
       some v) := by
  unfold cacheGet
  rw [h]
  dsimp only
  rw [if_neg hne]

theorem mget_cacheSet_self (c : MemCache) (key v : String)
    (hm : 1 ≤ c.maxSize) (h0 : mget c.data key = none) :
    mget (cacheSet c key v).data key = some v := by
  have hdel : mdel c.data key = c.data := mdel_eq_of_mget_none _ _ h0
  have hset : mset (mdel c.data key) key v = c.data ++ [(key, v)] := by
    rw [hdel]
    exact mset_eq_append_of_mget_none _ _ _ h0
  have hget : mget (c.data ++ [(key, v)]) key = some v := by
    rw [mget_append_of_none _ _ _ h0]
    simp [mget]
  unfold cacheSet
  dsimp only
  rw [hset]
  split
  next hlen =>
    cases hd : c.data with
    | nil =>
      rw [hd] at hlen
      simp at hlen
      omega
    | cons p ps =>
      rw [hd] at hget
      simp only [List.cons_append, List.head?_cons]
      have hpk : p.1 ≠ key := by
        have := mget_none_forall c.data key h0 p (hd ▸ List.mem_cons_self p ps)
        exact this
      split
      next hne =>
        dsimp only
        rw [mget_mdel_ne _ _ _ (Ne.symm hpk)]
        exact hget
      next hne =>
        dsimp only
        exact hget
  next hlen =>
    exact hget

theorem processMessage_miss (hashFn : String → String) (delayMs : Nat)
    (c : MemCache) (text : String) (h0 : mget c.data text = none) :
    processMessage hashFn delayMs c text =
      (cacheSet { c with misses := c.misses + 1 } text (hashFn text),
       { hash := hashFn text, processingTimeMs := delayMs, fromCache := false }) := by
  unfold processMessage
  rw [cacheGet_none c text h0]
  rfl

theorem processMessage_falsy (hashFn : String → String) (delayMs : Nat)
    (c : MemCache) (text : String) (h0 : mget c.data text = some "") :
    processMessage hashFn delayMs c text =
      (cacheSet { c with misses := c.misses + 1 } text (hashFn text),
       { hash := hashFn text, processingTimeMs := delayMs, fromCache := false }) := by
  unfold processMessage
  rw [cacheGet_falsy c text h0]
  rfl

theorem processMessage_hit (hashFn : String → String) (delayMs : Nat)
    (c : MemCache) (text v : String) (h0 : mget c.data text = some v)
    (hne : v ≠ "") :
    processMessage hashFn delayMs c text =
      ({ c with hits := c.hits + 1, data := mset (mdel c.data text) text v },
       { hash := v, processingTimeMs := 0, fromCache := true }) := by
  unfold processMessage
  rw [cacheGet_some c text v h0 hne]
  dsimp only
  rw [if_pos hne]

/-- Invariant of the cache-aside pipeline: every cache entry maps a text
to its digest under the (fixed, deterministic) hash function. -/
def HashConsistent (hashFn : String → String) (c : MemCache) : Prop :=
  ∀ p ∈ c.data, p.2 = hashFn p.1

theorem hashConsistent_cacheSet (hashFn : String → String) (c : MemCache)
    (text : String) (h : HashConsistent hashFn c) :
    HashConsistent hashFn (cacheSet c text (hashFn text)) := by
  have hsub : ∀ p : String × String,
      p ∈ mset (mdel c.data text) text (hashFn text) → p.2 = hashFn p.1 := by
    intro p hp
    rcases mem_mset _ _ _ _ hp with hp' | hp'
    · exact h p (mem_mdel _ _ _ hp')
    · rw [hp']
  unfold cacheSet
  dsimp only
  split
  · split
    next p' heq =>
      split
      · intro p hp
        exact hsub p (mem_mdel _ _ _ hp)
      · intro p hp
        exact hsub p hp
    · intro p hp
      exact hsub p hp
  · intro p hp
    exact hsub p hp

theorem hashConsistent_processMessage (hashFn : String → String)
    (delayMs : Nat) (c : MemCache) (text : String)
    (h : HashConsistent hashFn c) :
    HashConsistent hashFn (processMessage hashFn delayMs c text).1 := by
  rcases hv : mget c.data text with _ | v
  · rw [processMessage_miss hashFn delayMs c text hv]
    exact hashConsistent_cacheSet hashFn { c with misses := c.misses + 1 } text h
  · by_cases hne : v = ""
    · subst hne
      rw [processMessage_falsy hashFn delayMs c text hv]
      exact hashConsistent_cacheSet hashFn { c with misses := c.misses + 1 } text h
    · rw [processMessage_hit hashFn delayMs c text v hv hne]
      intro p hp
      rcases mem_mset _ _ _ _ hp with hp' | hp'
      · exact h p (mem_mdel _ _ _ hp')
      · rw [hp']
        exact h (text, v) (mem_of_mget_eq_some _ _ _ hv)

theorem hashConsistent_runMessages (hashFn : String → String)
    (delayMs maxSize : Nat) (texts : List String) :
    HashConsistent hashFn (runMessages hashFn delayMs maxSize texts) := by
  unfold runMessages
  have hgen : ∀ c : MemCache, HashConsistent hashFn c →
      HashConsistent hashFn
        (texts.foldl (fun c t => (processMessage hashFn delayMs c t).1) c) := by
    induction texts with
    | nil => intro c h; exact h
    | cons t rest ih =>
      intro c h
      exact ih _ (hashConsistent_processMessage hashFn delayMs c t h)
  apply hgen
  intro p hp
  cases hp

theorem processMessage_hash_of_consistent (hashFn : String → String)
    (delayMs : Nat) (c : MemCache) (text : String)
    (h : HashConsistent hashFn c) :
    (processMessage hashFn delayMs c text).2.hash = hashFn text := by
  rcases hv : mget c.data text with _ | v
  · rw [processMessage_miss hashFn delayMs c text hv]
  · by_cases hne : v = ""
    · subst hne
      rw [processMessage_falsy hashFn delayMs c text hv]
    · rw [processMessage_hit hashFn delayMs c text v hv hne]
      exact h (text, v) (mem_of_mget_eq_some _ _ _ hv)

/-- Claim C9: along every sequence of `processMessage` calls from a
fresh cache, the digest returned for `x` is exactly the deterministic
hash of `x`, whether it was served from the cache or freshly computed.
(The SHA-256 primitive lives in the external `node:crypto` library and
is abstracted as the function `hashFn`.) -/
theorem digest_always_hash_of_input (hashFn : String → String)
    (delayMs maxSize : Nat) (texts : List String) (text : String) :
    (processMessage hashFn delayMs
        (runMessages hashFn delayMs maxSize texts) text).2.hash = hashFn text :=
  processMessage_hash_of_consistent hashFn delayMs _ text
    (hashConsistent_runMessages hashFn delayMs maxSize texts)

/-- Claim C5: for a text with no prior cache entry, the first
`processMessage` returns `fromCache = false` and the digest of the text,
and stores the digest in the cache; afterwards, from any state in which
the cache still holds that entry (i.e. before eviction), a further
`processMessage` of the same text returns `fromCache = true`,
`processingTimeMs = 0`, and the identical digest.  (The hypothesis
`hashFn text ≠ ""` reflects that a SHA-256 hex digest is never the empty
string, and `1 ≤ maxSize` that the cache can hold at least one entry.) -/
theorem processMessage_cache_aside (hashFn : String → String) (delayMs : Nat)
    (c : MemCache) (text : String)
    (h0 : mget c.data text = none) (hh : hashFn text ≠ "") (hm : 1 ≤ c.maxSize) :
    (processMessage hashFn delayMs c text).2.fromCache = false ∧
    (processMessage hashFn delayMs c text).2.hash = hashFn text ∧
    mget (processMessage hashFn delayMs c text).1.data text = some (hashFn text) ∧
    (∀ c' : MemCache, mget c'.data text = some (hashFn text) →
      (processMessage hashFn delayMs c' text).2.fromCache = true ∧
      (processMessage hashFn delayMs c' text).2.processingTimeMs = 0 ∧
      (processMessage hashFn delayMs c' text).2.hash =
        (processMessage hashFn delayMs c text).2.hash) := by
  have hmiss := processMessage_miss hashFn delayMs c text h0
  refine ⟨by rw [hmiss], by rw [hmiss], ?_, ?_⟩
  · rw [hmiss]
    exact mget_cacheSet_self { c with misses := c.misses + 1 } text (hashFn text) hm h0
  · intro c' hc'
    have hhit := processMessage_hit hashFn delayMs c' text (hashFn text) hc' hh
    exact ⟨by rw [hhit], by rw [hhit], by rw [hhit, hmiss]⟩

/-- Witness for claim C5 at a concrete input: a fresh cache of size 2
and the hash function appending a hash mark. -/
theorem processMessage_cache_aside_witness :
    mget (emptyCache 2).data "m" = none ∧
    (fun s : String => s ++ "#") "m" ≠ "" ∧
    1 ≤ (emptyCache 2).maxSize ∧
    ((processMessage (fun s => s ++ "#") 5 (emptyCache 2) "m").2.fromCache = false ∧
      (processMessage (fun s => s ++ "#") 5 (emptyCache 2) "m").2.hash =
        (fun s : String => s ++ "#") "m" ∧
      mget (processMessage (fun s => s ++ "#") 5 (emptyCache 2) "m").1.data "m" =
        some ((fun s : String => s ++ "#") "m") ∧
      (∀ c' : MemCache, mget c'.data "m" = some ((fun s : String => s ++ "#") "m") →
        (processMessage (fun s => s ++ "#") 5 c' "m").2.fromCache = true ∧
        (processMessage (fun s => s ++ "#") 5 c' "m").2.processingTimeMs = 0 ∧
        (processMessage (fun s => s ++ "#") 5 c' "m").2.hash =
          (processMessage (fun s => s ++ "#") 5 (emptyCache 2) "m").2.hash)) :=
  ⟨by decide, by decide, by decide,
    processMessage_cache_aside (fun s => s ++ "#") 5 (emptyCache 2) "m"
      (by decide) (by decide) (by decide)⟩

/-- Claim C2, evaluated at the failing input: with `maxSize = 1`,
setting key `""` and then key `"a"` leaves the cache at size 2 — the
eviction is skipped because the oldest key, the empty string, fails the
JavaScript truthiness guard `if (oldest)` — so the size invariant of
the claim does not hold on the code. -/
theorem cache_size_exceeds_max_at_empty_key :
    (cacheSet (cacheSet (emptyCache 1) "" "v0") "a" "v1").data =
      [("", "v0"), ("a", "v1")] ∧
    (cacheSet (cacheSet (emptyCache 1) "" "v0") "a" "v1").maxSize = 1 ∧
    (cacheSet (cacheSet (emptyCache 1) "" "v0") "a" "v1").maxSize <
      (cacheSet (cacheSet (emptyCache 1) "" "v0") "a" "v1").data.length := by
  refine ⟨by decide, by decide, by decide⟩

/-- Claim C4, evaluated at the failing input: with `maxSize = 2`,
inserting the three distinct keys `""`, `"a"`, `"b"` with no intervening
`get` does not evict the first-inserted key `""` (the truthiness guard
`if (oldest)` skips the eviction), leaving all three keys present, so
the LRU-eviction behaviour claimed does not hold on the code. -/
theorem lru_eviction_skipped_at_empty_key :
    mget (cacheSet (cacheSet (cacheSet (emptyCache 2) "" "v0") "a" "v1") "b" "v2").data ""
      = some "v0" ∧
    mget (cacheSet (cacheSet (cacheSet (emptyCache 2) "" "v0") "a" "v1") "b" "v2").data "a"
      = some "v1" ∧
    mget (cacheSet (cacheSet (cacheSet (emptyCache 2) "" "v0") "a" "v1") "b" "v2").data "b"
      = some "v2" ∧
    (cacheSet (cacheSet (cacheSet (emptyCache 2) "" "v0") "a" "v1") "b" "v2").data.length
      = 3 := by
  refine ⟨by decide, by decide, by decide, by decide⟩
